import Mathlib

/-!
Shallow embedding of the UEx-CiteHub server (Python) and proofs about it.

Each definition mirrors one function or data structure of the source tree
under src/server/.  Machine details that cannot influence the verified
properties are modelled abstractly and documented at the definition site:

* the SHA-256 content address of storage.py `filename_for` is modelled as an
  injective encoding (the identity on strings), because every claim depends
  only on equality of the resulting paths;
* JSON blobs are modelled as ordered key/value lists (`json.dumps` of a flat
  object is injective on such lists);
* Python floats `1.0` / `0.0` returned by the merger are modelled as
  rationals.
-/

namespace CiteHub

/-! ## storage.py -/

/-- Model of storage.py `filename_for`.  The source computes the SHA-256 hex
digest of the identifier, used only as a stable content address; the claims
depend only on equality of paths, so the hash is modelled as the identity
(an injective encoding of the identifier). -/
def filenameFor (identifier : String) : String := identifier

/-- Model of storage.py `Author` (dataclass with all-optional fields).  The
`extra` dict never influences any claim and carries opaque data, so it is
modelled as a key/value list. -/
structure Author where
  id : Option String := none
  full_name : Option String := none
  first_name : Option String := none
  last_name : Option String := none
  extra : List (String × String) := []
deriving DecidableEq, Repr

/-- Python truthiness of an optional string: `None` and the empty string are
falsy. -/
def truthy : Option String → Option String
  | none => none
  | some s => if s = "" then none else some s

/-- Model of storage.py `Author.name`: `full_name` when truthy, otherwise the
stripped concatenation of first and last name; a `ValueError`
(unidentifiable author) is modelled as `none`. -/
def Author.name (a : Author) : Option String :=
  match truthy a.full_name with
  | some n => some n
  | none =>
    let first := (a.first_name.getD "").trim
    let last := (a.last_name.getD "").trim
    let full := (first ++ " " ++ last).trim
    if full = "" then none else some full

/-- Model of storage.py `Author.unique_path_name`; `none` models the
`ValueError` raised for an unidentifiable author. -/
def Author.uniquePathName (a : Author) : Option String :=
  match truthy a.id with
  | some i => some ("author/" ++ filenameFor i)
  | none => a.name.map (fun n => "author/uniden/" ++ filenameFor n)

/-- An entry of `Publication.authors`.  The source declares the slot as a
list of `Author` but step.py deliberately also stores the path strings the
records are converted to ("the types are violated for a bit"), so the model
uses an explicit sum. -/
inductive AuthorRef where
  | author (a : Author)
  | path (p : String)
deriving DecidableEq, Repr

/-- Model of storage.py `Publication` (the fields the claims touch;
`cit_paths` and `extra` ride along untouched). -/
structure Publication where
  id : Option String := none
  name : Option String := none
  authors : List AuthorRef := []
  cit_paths : Option (List String) := none
  year : Option Int := none
  ref : Option String := none
  extra : List (String × String) := []
deriving DecidableEq, Repr

/-- Model of storage.py `Publication.unique_path_name`; `none` models the
crash on a publication with neither id nor name. -/
def Publication.uniquePathName (p : Publication) : Option String :=
  match truthy p.id with
  | some i => some ("pub/" ++ filenameFor i)
  | none => p.name.map (fun n => "pub/uniden/" ++ filenameFor n)

/-! ## merger.py -/

/-- Word characters of the regex `\w` (ASCII fragment): letters, digits and
the underscore. -/
def wordChar (c : Char) : Bool := c.isAlphanum || c == '_'

/-- Maximal runs of word characters, accumulator-style: the model of
`re.findall` with pattern `\w+`.  The first argument holds the current run
reversed. -/
def wordRunsAux : List Char → List Char → List String
  | acc, [] => if acc.isEmpty then [] else [String.mk acc.reverse]
  | acc, c :: cs =>
    if wordChar c then
      wordRunsAux (c :: acc) cs
    else if acc.isEmpty then
      wordRunsAux [] cs
    else
      String.mk acc.reverse :: wordRunsAux [] cs

/-- Tokens of a publication name as computed in merger.py `similarity`:
lowercase the name character-wise, then take the maximal word-character
runs. -/
def titleTokens (s : String) : List String :=
  wordRunsAux [] (s.data.map Char.toLower)

/-- Model of merger.py `similarity`.  The result is `none` when either
publication has no name (the source would crash lowercasing `None`), and
otherwise the rational 1 or 0 the source returns as a float. -/
def similarity (a b : Publication) : Option ℚ :=
  match a.name, b.name with
  | some na, some nb => some (if titleTokens na = titleTokens nb then 1 else 0)
  | _, _ => none

/-! ## users.py -/

def MIN_PASSWORD_LENGTH : Nat := 5
def MAX_DETAILS_LENGTH : Nat := 128

/-- Model of `USERNAME_RE.match(username)` where the pattern is `[a-z]+`.
Python `re.match` anchors at the start of the string only, so the match
succeeds exactly when the first character is a lowercase ASCII letter. -/
def usernameReMatch (s : String) : Bool :=
  match s.data with
  | [] => false
  | c :: _ => 'a' ≤ c && c ≤ 'z'

/-- The full-match predicate the specification states for usernames
(pattern anchored on both sides, as in a hypothetical fullmatch): nonempty
and every character a lowercase ASCII letter. -/
def usernameFullMatch (s : String) : Bool :=
  !s.isEmpty && s.data.all (fun c => 'a' ≤ c && c ≤ 'z')

/-- Model of users.py `_check_password`: `some reason` models the raised
`HTTPBadRequest`. -/
def checkPassword (password : String) : Option String :=
  if password.length < MIN_PASSWORD_LENGTH then
    some "password too short"
  else if password.length > MAX_DETAILS_LENGTH then
    some "password too long"
  else
    none

/-- Outcome of the validation in users.py `Users.register`: either an
`HTTPBadRequest` with a reason, or acceptance (the source then hashes the
password, stores the user and returns a fresh token). -/
inductive RegisterOutcome where
  | badRequest (reason : String)
  | accepted
deriving DecidableEq, Repr

/-- Model of the validation sequence of users.py `Users.register`, in source
order: length check, regex check, duplicate check, password check. -/
def registerValidate (existing : List String) (username password : String) :
    RegisterOutcome :=
  if username.length > MAX_DETAILS_LENGTH then
    .badRequest "username must be 128 characters long or less"
  else if !usernameReMatch username then
    .badRequest "username must use lowercase ascii letters only"
  else if username ∈ existing then
    .badRequest "username is already occupied"
  else
    match checkPassword password with
    | some reason => .badRequest reason
    | none => .accepted

/-- Stored per-user details of users.py (the salted password hash and the
optional login token). -/
structure UserDetails where
  salt : String
  password : String
  token : Option String := none
deriving DecidableEq, Repr

/-- In-memory state of users.py `Users`: the `username -> details` store and
the derived `token -> username` index, both insertion-ordered dicts. -/
structure UsersState where
  users : List (String × UserDetails)
  tokenToUser : List (String × String)
deriving DecidableEq, Repr

/-- Model of `dict.pop(key, None)`: the removed value (if any) and the
remaining entries. -/
def popKey {α : Type} : List (String × α) → String → Option α × List (String × α)
  | [], _ => (none, [])
  | (k, v) :: rest, key =>
    if k = key then
      (some v, rest)
    else
      let (found, rest') := popKey rest key
      (found, (k, v) :: rest')

/-- Replace the details of `user` in the store; `none` models the `KeyError`
of `self._users[user]` when the user is absent. -/
def setUserToken : List (String × UserDetails) → String → Option String →
    Option (List (String × UserDetails))
  | [], _, _ => none
  | (k, d) :: rest, user, tok =>
    if k = user then
      some ((k, { d with token := tok }) :: rest)
    else
      (setUserToken rest user tok).map (fun r => (k, d) :: r)

/-- Remove `user` from the store; `none` models the `KeyError` of
`del self._users[user]` when the user is absent. -/
def delUser : List (String × UserDetails) → String → Option (List (String × UserDetails))
  | [], _ => none
  | (k, d) :: rest, user =>
    if k = user then
      some rest
    else
      (delUser rest user).map (fun r => (k, d) :: r)

/-- Model of users.py `Users.logout`.  The result carries the returned
boolean, the new state, and whether `_save` ran (persistence); the outer
`none` models an uncaught `KeyError`.  The token index is popped first, and
a falsy popped value (absent token, or the impossible empty username) makes
the method return `False` without touching the user store. -/
def usersLogout (st : UsersState) (token : String) :
    Option (Bool × UsersState × Bool) :=
  let (user, m) := popKey st.tokenToUser token
  match user with
  | none => some (false, { st with tokenToUser := m }, false)
  | some u =>
    if u = "" then
      some (false, { st with tokenToUser := m }, false)
    else
      match setUserToken st.users u none with
      | none => none
      | some users => some (true, { users := users, tokenToUser := m }, true)

/-- Model of users.py `Users.delete`, same conventions as `usersLogout`. -/
def usersDelete (st : UsersState) (token : String) :
    Option (Bool × UsersState × Bool) :=
  let (user, m) := popKey st.tokenToUser token
  match user with
  | none => some (false, { st with tokenToUser := m }, false)
  | some u =>
    if u = "" then
      some (false, { st with tokenToUser := m }, false)
    else
      match delUser st.users u with
      | none => none
      | some users => some (true, { users := users, tokenToUser := m }, true)

/-! ## utils.py -/

/-- Model of Python `int(s)` on the strings the configuration uses. -/
def pyInt (s : String) : Option Int := s.toInt?

/-- Model of utils.py `parse_delay`: the empty (falsy) value is 0 seconds, a
suffix `s`/`m`/`h`/`d` scales the integer prefix, and a bare integer counts
seconds; `none` models the `ValueError` of `int` on malformed input. -/
def parseDelay (delay : String) : Option Int :=
  if delay = "" then some 0
  else
    let d := delay.toLower
    if d.endsWith "s" then pyInt (d.dropRight 1)
    else if d.endsWith "m" then (pyInt (d.dropRight 1)).map (60 * ·)
    else if d.endsWith "h" then (pyInt (d.dropRight 1)).map (60 * 60 * ·)
    else if d.endsWith "d" then (pyInt (d.dropRight 1)).map (24 * 60 * 60 * ·)
    else pyInt d

/-! ## auth.py -/

def CLEAN_RATE_LIMIT_THRESHOLD : Nat := 1000
def CLEAN_RATE_LIMIT_DELAY : Int := 10

/-- Insert or update a key of the rate-limit dict, keeping insertion
order. -/
def setDue : List (String × Int) → String → Int → List (String × Int)
  | [], k, v => [(k, v)]
  | (k0, v0) :: rest, k, v =>
    if k0 = k then
      (k0, v) :: rest
    else
      (k0, v0) :: setDue rest k v

/-- The lazy cleanup sweep at the top of auth.py `Auth.apply_rate_limit`:
once the dict holds at least 1000 entries and 10 seconds passed since the
last sweep, drop every entry whose due time is not in the future. -/
def rateLimitClean (ipToDue : List (String × Int)) (lastCleaned now : Int) :
    List (String × Int) × Int :=
  if ipToDue.length ≥ CLEAN_RATE_LIMIT_THRESHOLD ∧
      now - lastCleaned > CLEAN_RATE_LIMIT_DELAY then
    (ipToDue.filter (fun kv => decide (now < kv.2)), now)
  else
    (ipToDue, lastCleaned)

/-- Model of auth.py `Auth.apply_rate_limit`.  Arguments: the configured
delay, the `remote-address -> next-allowed-time` dict, the time of the last
cleanup sweep, the current event-loop time and the request remote address.
The result is `none` for a raised `HTTPTooManyRequests` (429) and otherwise
the updated dict and last-cleaned time. -/
def applyRateLimit (failRetryDelay : Int) (ipToDue : List (String × Int))
    (lastCleaned now : Int) (remote : String) :
    Option (List (String × Int) × Int) :=
  if failRetryDelay = 0 then
    some (ipToDue, lastCleaned)
  else if now ≥ (List.lookup remote (rateLimitClean ipToDue lastCleaned now).1).getD 0 then
    some (setDue (rateLimitClean ipToDue lastCleaned now).1 remote
            (now + failRetryDelay),
          (rateLimitClean ipToDue lastCleaned now).2)
  else
    none

/-! ## crawler/step.py -/

def FULL_CYCLE_DELAY : Nat := 7 * 24 * 60 * 60

/-- Model of step.py `Step`.  The stage slot is `Any` in the source, so the
structure is parameterised by the stage type; `none` is the Python `None`
meaning a restart from the initial stage.  Citations are an
insertion-ordered dict `publication id -> citing publications`. -/
structure Step (σ : Type) where
  delay : Nat := FULL_CYCLE_DELAY
  stage : Option σ := none
  authors : List Author := []
  self_publications : List Publication := []
  citations : List (String × List Publication) := []
  error : Option Nat := none
deriving DecidableEq, Repr

/-- Insert into the dedup dict of `fix_authors` (`authors[path] = author`):
an existing key keeps its position and gets the new value, a new key is
appended. -/
def insertRep (m : List (String × Author)) (k : String) (a : Author) :
    List (String × Author) :=
  match m with
  | [] => [(k, a)]
  | (k0, a0) :: rest =>
    if k0 = k then (k0, a) :: rest else (k0, a0) :: insertRep rest k a

/-- Process one `publication.authors` list as the inner loop of
`fix_authors` does: embedded `Author` records are entered into the dedup
dict and replaced by their path, path strings are left alone.  `none`
models the `ValueError` of `unique_path_name` on an unidentifiable
author. -/
def fixElems (acc : List (String × Author)) :
    List AuthorRef → Option (List (String × Author) × List AuthorRef)
  | [] => some (acc, [])
  | .path p :: rest =>
    match fixElems acc rest with
    | none => none
    | some (acc', rest') => some (acc', .path p :: rest')
  | .author a :: rest =>
    match a.uniquePathName with
    | none => none
    | some p =>
      match fixElems (insertRep acc p a) rest with
      | none => none
      | some (acc', rest') => some (acc', .path p :: rest')

/-- Run `fixElems` over the author list of every publication in a list. -/
def fixPubs (acc : List (String × Author)) :
    List Publication → Option (List (String × Author) × List Publication)
  | [] => some (acc, [])
  | pub :: rest =>
    match fixElems acc pub.authors with
    | none => none
    | some (acc', authors') =>
      match fixPubs acc' rest with
      | none => none
      | some (acc'', rest') => some (acc'', { pub with authors := authors' } :: rest')

/-- Run `fixElems` over every citation list of the citations dict. -/
def fixCits (acc : List (String × Author)) :
    List (String × List Publication) →
      Option (List (String × Author) × List (String × List Publication))
  | [] => some (acc, [])
  | (pid, cits) :: rest =>
    match fixPubs acc cits with
    | none => none
    | some (acc', cits') =>
      match fixCits acc' rest with
      | none => none
      | some (acc'', rest') => some (acc'', (pid, cits') :: rest')

/-- Model of step.py `Step.fix_authors`: walk the self publications, then
every citation list, converting embedded `Author` records to paths while
collecting them deduplicated by path, and finally extend `authors` with the
collected records in insertion order. -/
def fixAuthors {σ : Type} (s : Step σ) : Option (Step σ) :=
  match fixPubs [] s.self_publications with
  | none => none
  | some (acc₁, pubs') =>
    match fixCits acc₁ s.citations with
    | none => none
    | some (acc₂, cits') =>
      some { s with
              self_publications := pubs'
              citations := cits'
              authors := s.authors ++ acc₂.map Prod.snd }

/-- All author-slot entries of a step, in traversal order of
`fix_authors`. -/
def stepRefs {σ : Type} (s : Step σ) : List AuthorRef :=
  (s.self_publications.map Publication.authors).flatten ++
    (s.citations.map (fun c => (c.2.map Publication.authors).flatten)).flatten

/-- Whether an author-slot entry is a path string (as opposed to an embedded
record). -/
def refIsPath : AuthorRef → Bool
  | .path _ => true
  | .author _ => false

/-- The embedded `Author` records of a step. -/
def embeddedAuthors {σ : Type} (s : Step σ) : List Author :=
  (stepRefs s).filterMap (fun r =>
    match r with
    | .author a => some a
    | .path _ => none)

/-- The path strings referenced from author slots of a step. -/
def refPaths {σ : Type} (s : Step σ) : List String :=
  (stepRefs s).filterMap (fun r =>
    match r with
    | .author _ => none
    | .path p => some p)

/-- The paths of a list of author records. -/
def authorPaths (la : List Author) : List String :=
  la.filterMap Author.uniquePathName

/-! ## Stage serialization (step.py `stage_as_json` / task.py `Task.load`)

Stages are dataclass variants with a stable integer `INDEX`; the blob is the
field dict of the variant plus `_index` (and `_error` when the step carries
a consecutive-error counter).  The blob is modelled as an ordered key/value
list of JSON scalars; `json.dumps` is injective on such flat objects. -/

/-- JSON values appearing in the stage blobs of the adapters: `null` (for
`Optional` dataclass fields holding `None`), integers, strings and string
lists. -/
inductive JVal where
  | null
  | int (i : Int)
  | str (s : String)
  | strList (l : List String)
deriving DecidableEq, Repr

/-- Serialization of an `Optional[str]` dataclass field. -/
def optStr : Option String → JVal
  | none => .null
  | some s => .str s

/-- Serialization of an `Optional[List[str]]` dataclass field. -/
def optStrList : Option (List String) → JVal
  | none => .null
  | some l => .strList l

/-- Decoding of an `Optional[str]` dataclass field from its blob value. -/
def decodeOptStr : JVal → Option (Option String)
  | .null => some none
  | .str s => some (some s)
  | _ => none

/-- Decoding of an `Optional[List[str]]` dataclass field from its blob
value. -/
def decodeOptStrList : JVal → Option (Option (List String))
  | .null => some none
  | .strList l => some (some l)
  | _ => none

/-- Model of `dict.pop(key)` on a blob: drop the key. -/
def removeKey (k : String) : List (String × JVal) → List (String × JVal)
  | [] => []
  | p :: rest => if p.1 = k then removeKey k rest else p :: removeKey k rest

/-- Stage variants of crawlers/aminer.py (`Stage.FetchPublications` with
`offset: int = 0`, `Stage.FetchCitations` with `pub_offset: int = 0` and
`cit_offset: int = 0`). -/
inductive AminerStage where
  | fetchPublications (offset : Int)
  | fetchCitations (pub_offset : Int) (cit_offset : Int)
deriving DecidableEq, Repr

/-- The stable `INDEX` discriminator of each aminer stage variant. -/
def AminerStage.INDEX : AminerStage → Int
  | .fetchPublications _ => 0
  | .fetchCitations _ _ => 1

/-- Model of `dataclasses.asdict` on an aminer stage. -/
def AminerStage.asdict : AminerStage → List (String × JVal)
  | .fetchPublications offset => [("offset", .int offset)]
  | .fetchCitations po co => [("pub_offset", .int po), ("cit_offset", .int co)]

/-- Model of step.py `Step.stage_as_json` for an aminer stage: the field
dict plus `_index`, plus `_error` when the step carries an error
counter. -/
def aminerStageAsJson (stage : AminerStage) (error : Option Nat) :
    List (String × JVal) :=
  stage.asdict ++ [("_index", .int stage.INDEX)] ++
    (match error with
     | some e => [("_error", .int e)]
     | none => [])

/-- Model of `Stage.FetchPublications(**data)`: keys must be declared
fields, the missing `offset` falls back to its dataclass default 0. -/
def mkAminerFetchPublications (kw : List (String × JVal)) : Option AminerStage :=
  if kw.all (fun p => ["offset"].contains p.1) then
    match (List.lookup "offset" kw).getD (.int 0) with
    | .int o => some (.fetchPublications o)
    | _ => none
  else none

/-- Model of `Stage.FetchCitations(**data)` for aminer, defaults 0. -/
def mkAminerFetchCitations (kw : List (String × JVal)) : Option AminerStage :=
  if kw.all (fun p => ["pub_offset", "cit_offset"].contains p.1) then
    match (List.lookup "pub_offset" kw).getD (.int 0),
        (List.lookup "cit_offset" kw).getD (.int 0) with
    | .int po, .int co => some (.fetchCitations po co)
    | _, _ => none
  else none

/-- Model of the variant-selection loop of task.py `Task.load`: iterate the
dataclass members of `Stage` (in `dir()` order, which is alphabetical) and
construct the one whose `INDEX` equals the stored `_index`. -/
def aminerSelectVariant (idx : Int) (kw : List (String × JVal)) :
    Option AminerStage :=
  [((1 : Int), mkAminerFetchCitations), ((0 : Int), mkAminerFetchPublications)].foldl
    (fun acc p => if p.1 = idx then p.2 kw else acc) none

/-- Deserialize an aminer stage blob: pop `_index` and select the variant,
as task.py `Task.load` does with the stage portion of the blob. -/
def aminerLoadStage (data : List (String × JVal)) : Option AminerStage :=
  match List.lookup "_index" data with
  | some (.int idx) => aminerSelectVariant idx (removeKey "_index" data)
  | _ => none

/-- Stage variants of crawlers/researchgate.py: `FetchPublications` (no
fields), `FetchToken` with `known_pub_ids: List[str]`, `FetchCitations`
with `rg_token: str`, `sid: str`, `missing_pub_ids: List[str]` and
`cit_offset: int = 0`. -/
inductive RgStage where
  | fetchPublications
  | fetchToken (known_pub_ids : List String)
  | fetchCitations (rg_token : String) (sid : String)
      (missing_pub_ids : List String) (cit_offset : Int)
deriving DecidableEq, Repr

/-- The stable `INDEX` discriminator of each researchgate stage variant. -/
def RgStage.INDEX : RgStage → Int
  | .fetchPublications => 0
  | .fetchToken _ => 1
  | .fetchCitations _ _ _ _ => 2

/-- Model of `dataclasses.asdict` on a researchgate stage. -/
def RgStage.asdict : RgStage → List (String × JVal)
  | .fetchPublications => []
  | .fetchToken known => [("known_pub_ids", .strList known)]
  | .fetchCitations tok sid missing co =>
    [("rg_token", .str tok), ("sid", .str sid),
     ("missing_pub_ids", .strList missing), ("cit_offset", .int co)]

/-- Model of step.py `Step.stage_as_json` for a researchgate stage. -/
def rgStageAsJson (stage : RgStage) (error : Option Nat) :
    List (String × JVal) :=
  stage.asdict ++ [("_index", .int stage.INDEX)] ++
    (match error with
     | some e => [("_error", .int e)]
     | none => [])

/-- Model of `Stage.FetchPublications(**data)` for researchgate (no
declared fields). -/
def mkRgFetchPublications (kw : List (String × JVal)) : Option RgStage :=
  if kw.isEmpty then some .fetchPublications else none

/-- Model of `Stage.FetchToken(**data)`: `known_pub_ids` has no default and
must be present. -/
def mkRgFetchToken (kw : List (String × JVal)) : Option RgStage :=
  if kw.all (fun p => ["known_pub_ids"].contains p.1) then
    match List.lookup "known_pub_ids" kw with
    | some (.strList known) => some (.fetchToken known)
    | _ => none
  else none

/-- Model of `Stage.FetchCitations(**data)` for researchgate: three
mandatory fields and `cit_offset` defaulting to 0. -/
def mkRgFetchCitations (kw : List (String × JVal)) : Option RgStage :=
  if kw.all (fun p =>
      ["rg_token", "sid", "missing_pub_ids", "cit_offset"].contains p.1) then
    match List.lookup "rg_token" kw, List.lookup "sid" kw,
        List.lookup "missing_pub_ids" kw with
    | some (.str tok), some (.str sid), some (.strList missing) =>
      match (List.lookup "cit_offset" kw).getD (.int 0) with
      | .int co => some (.fetchCitations tok sid missing co)
      | _ => none
    | _, _, _ => none
  else none

/-- Variant selection for researchgate, `dir()` (alphabetical) order. -/
def rgSelectVariant (idx : Int) (kw : List (String × JVal)) : Option RgStage :=
  [((2 : Int), mkRgFetchCitations), ((0 : Int), mkRgFetchPublications),
   ((1 : Int), mkRgFetchToken)].foldl
    (fun acc p => if p.1 = idx then p.2 kw else acc) none

/-- Deserialize a researchgate stage blob. -/
def rgLoadStage (data : List (String × JVal)) : Option RgStage :=
  match List.lookup "_index" data with
  | some (.int idx) => rgSelectVariant idx (removeKey "_index" data)
  | _ => none

/-- Stage variants of crawlers/scholar.py.  The `known_pub_ids = List[str]`
lines of `FetchPublications`, `FetchSinglePublication` and `FetchCitations`
are unannotated assignments, hence plain class attributes (holding the
`typing.List[str]` object) and not dataclass fields: `asdict` skips them
and the constructor takes no such keyword.  The declared dataclass fields
are: `FetchFirst` none, `FetchPublications` none, `FetchSinglePublication`
`offset: int = 0`, `FetchCitations` `offset: int` and `cit_url: str`. -/
inductive ScholarStage where
  | fetchFirst
  | fetchPublications
  | fetchSinglePublication (offset : Int)
  | fetchCitations (offset : Int) (cit_url : String)
deriving DecidableEq, Repr

/-- The stable `INDEX` discriminator of each scholar stage variant. -/
def ScholarStage.INDEX : ScholarStage → Int
  | .fetchFirst => 0
  | .fetchPublications => 1
  | .fetchSinglePublication _ => 2
  | .fetchCitations _ _ => 3

/-- Model of `dataclasses.asdict` on a scholar stage. -/
def ScholarStage.asdict : ScholarStage → List (String × JVal)
  | .fetchFirst => []
  | .fetchPublications => []
  | .fetchSinglePublication offset => [("offset", .int offset)]
  | .fetchCitations offset cit_url =>
    [("offset", .int offset), ("cit_url", .str cit_url)]

/-- Model of step.py `Step.stage_as_json` for a scholar stage. -/
def scholarStageAsJson (stage : ScholarStage) (error : Option Nat) :
    List (String × JVal) :=
  stage.asdict ++ [("_index", .int stage.INDEX)] ++
    (match error with
     | some e => [("_error", .int e)]
     | none => [])

/-- Model of `Stage.FetchFirst(**data)` for scholar (no declared fields). -/
def mkScholarFetchFirst (kw : List (String × JVal)) : Option ScholarStage :=
  if kw.isEmpty then some .fetchFirst else none

/-- Model of `Stage.FetchPublications(**data)` for scholar (no declared
fields). -/
def mkScholarFetchPublications (kw : List (String × JVal)) :
    Option ScholarStage :=
  if kw.isEmpty then some .fetchPublications else none

/-- Model of `Stage.FetchSinglePublication(**data)` for scholar: `offset`
defaults to 0. -/
def mkScholarFetchSinglePublication (kw : List (String × JVal)) :
    Option ScholarStage :=
  if kw.all (fun p => ["offset"].contains p.1) then
    match (List.lookup "offset" kw).getD (.int 0) with
    | .int o => some (.fetchSinglePublication o)
    | _ => none
  else none

/-- Model of `Stage.FetchCitations(**data)` for scholar: `offset` and
`cit_url` are mandatory. -/
def mkScholarFetchCitations (kw : List (String × JVal)) :
    Option ScholarStage :=
  if kw.all (fun p => ["offset", "cit_url"].contains p.1) then
    match List.lookup "offset" kw, List.lookup "cit_url" kw with
    | some (.int o), some (.str u) => some (.fetchCitations o u)
    | _, _ => none
  else none

/-- Variant selection for scholar, `dir()` (alphabetical) order. -/
def scholarSelectVariant (idx : Int) (kw : List (String × JVal)) :
    Option ScholarStage :=
  [((3 : Int), mkScholarFetchCitations), ((0 : Int), mkScholarFetchFirst),
   ((1 : Int), mkScholarFetchPublications),
   ((2 : Int), mkScholarFetchSinglePublication)].foldl
    (fun acc p => if p.1 = idx then p.2 kw else acc) none

/-- Deserialize a scholar stage blob. -/
def scholarLoadStage (data : List (String × JVal)) : Option ScholarStage :=
  match List.lookup "_index" data with
  | some (.int idx) => scholarSelectVariant idx (removeKey "_index" data)
  | _ => none

/-- Stage variants of crawlers/msacademics.py: `FetchQueries` (no fields),
`FetchPublications` with `pub_count: int`, `pub_expr: str`,
`cit_expr: str`, `query: str` and `offset: int = 0`, `FetchCitations` with
`cit_expr: str`, `query: str` and `offset: int = 0`. -/
inductive AcademicsStage where
  | fetchQueries
  | fetchPublications (pub_count : Int) (pub_expr : String)
      (cit_expr : String) (query : String) (offset : Int)
  | fetchCitations (cit_expr : String) (query : String) (offset : Int)
deriving DecidableEq, Repr

/-- The stable `INDEX` discriminator of each academics stage variant. -/
def AcademicsStage.INDEX : AcademicsStage → Int
  | .fetchQueries => 0
  | .fetchPublications .. => 1
  | .fetchCitations .. => 2

/-- Model of `dataclasses.asdict` on an academics stage. -/
def AcademicsStage.asdict : AcademicsStage → List (String × JVal)
  | .fetchQueries => []
  | .fetchPublications pub_count pub_expr cit_expr query offset =>
    [("pub_count", .int pub_count), ("pub_expr", .str pub_expr),
     ("cit_expr", .str cit_expr), ("query", .str query),
     ("offset", .int offset)]
  | .fetchCitations cit_expr query offset =>
    [("cit_expr", .str cit_expr), ("query", .str query),
     ("offset", .int offset)]

/-- Model of step.py `Step.stage_as_json` for an academics stage. -/
def academicsStageAsJson (stage : AcademicsStage) (error : Option Nat) :
    List (String × JVal) :=
  stage.asdict ++ [("_index", .int stage.INDEX)] ++
    (match error with
     | some e => [("_error", .int e)]
     | none => [])

/-- Model of `Stage.FetchQueries(**data)` (no declared fields). -/
def mkAcademicsFetchQueries (kw : List (String × JVal)) :
    Option AcademicsStage :=
  if kw.isEmpty then some .fetchQueries else none

/-- Model of `Stage.FetchPublications(**data)` for academics: four
mandatory fields and `offset` defaulting to 0. -/
def mkAcademicsFetchPublications (kw : List (String × JVal)) :
    Option AcademicsStage :=
  if kw.all (fun p =>
      ["pub_count", "pub_expr", "cit_expr", "query", "offset"].contains p.1) then
    match List.lookup "pub_count" kw, List.lookup "pub_expr" kw,
        List.lookup "cit_expr" kw, List.lookup "query" kw with
    | some (.int pc), some (.str pe), some (.str ce), some (.str q) =>
      match (List.lookup "offset" kw).getD (.int 0) with
      | .int o => some (.fetchPublications pc pe ce q o)
      | _ => none
    | _, _, _, _ => none
  else none

/-- Model of `Stage.FetchCitations(**data)` for academics: two mandatory
fields and `offset` defaulting to 0. -/
def mkAcademicsFetchCitations (kw : List (String × JVal)) :
    Option AcademicsStage :=
  if kw.all (fun p => ["cit_expr", "query", "offset"].contains p.1) then
    match List.lookup "cit_expr" kw, List.lookup "query" kw with
    | some (.str ce), some (.str q) =>
      match (List.lookup "offset" kw).getD (.int 0) with
      | .int o => some (.fetchCitations ce q o)
      | _ => none
    | _, _ => none
  else none

/-- Variant selection for academics, `dir()` (alphabetical) order. -/
def academicsSelectVariant (idx : Int) (kw : List (String × JVal)) :
    Option AcademicsStage :=
  [((2 : Int), mkAcademicsFetchCitations),
   ((1 : Int), mkAcademicsFetchPublications),
   ((0 : Int), mkAcademicsFetchQueries)].foldl
    (fun acc p => if p.1 = idx then p.2 kw else acc) none

/-- Deserialize an academics stage blob. -/
def academicsLoadStage (data : List (String × JVal)) :
    Option AcademicsStage :=
  match List.lookup "_index" data with
  | some (.int idx) => academicsSelectVariant idx (removeKey "_index" data)
  | _ => none

/-- Stage variants of crawlers/dimensions.py: `FetchAuthors` (no fields),
`FetchPublications` with `known_pub_ids: Optional[List[str]] = None` and
`cursor: Optional[str] = None`, `FetchCitations` with
`missing_pub_ids: List[str]` and `cursor: Optional[str] = None`. -/
inductive DimensionsStage where
  | fetchAuthors
  | fetchPublications (known_pub_ids : Option (List String))
      (cursor : Option String)
  | fetchCitations (missing_pub_ids : List String) (cursor : Option String)
deriving DecidableEq, Repr

/-- The stable `INDEX` discriminator of each dimensions stage variant. -/
def DimensionsStage.INDEX : DimensionsStage → Int
  | .fetchAuthors => 0
  | .fetchPublications .. => 1
  | .fetchCitations .. => 2

/-- Model of `dataclasses.asdict` on a dimensions stage; `None` in an
`Optional` field serializes as JSON null. -/
def DimensionsStage.asdict : DimensionsStage → List (String × JVal)
  | .fetchAuthors => []
  | .fetchPublications known cursor =>
    [("known_pub_ids", optStrList known), ("cursor", optStr cursor)]
  | .fetchCitations missing cursor =>
    [("missing_pub_ids", .strList missing), ("cursor", optStr cursor)]

/-- Model of step.py `Step.stage_as_json` for a dimensions stage. -/
def dimensionsStageAsJson (stage : DimensionsStage) (error : Option Nat) :
    List (String × JVal) :=
  stage.asdict ++ [("_index", .int stage.INDEX)] ++
    (match error with
     | some e => [("_error", .int e)]
     | none => [])

/-- Model of `Stage.FetchAuthors(**data)` (no declared fields). -/
def mkDimensionsFetchAuthors (kw : List (String × JVal)) :
    Option DimensionsStage :=
  if kw.isEmpty then some .fetchAuthors else none

/-- Model of `Stage.FetchPublications(**data)` for dimensions: both fields
are `Optional` and default to `None`. -/
def mkDimensionsFetchPublications (kw : List (String × JVal)) :
    Option DimensionsStage :=
  if kw.all (fun p => ["known_pub_ids", "cursor"].contains p.1) then
    match decodeOptStrList ((List.lookup "known_pub_ids" kw).getD .null),
        decodeOptStr ((List.lookup "cursor" kw).getD .null) with
    | some known, some cursor => some (.fetchPublications known cursor)
    | _, _ => none
  else none

/-- Model of `Stage.FetchCitations(**data)` for dimensions:
`missing_pub_ids` is mandatory, `cursor` defaults to `None`. -/
def mkDimensionsFetchCitations (kw : List (String × JVal)) :
    Option DimensionsStage :=
  if kw.all (fun p => ["missing_pub_ids", "cursor"].contains p.1) then
    match List.lookup "missing_pub_ids" kw,
        decodeOptStr ((List.lookup "cursor" kw).getD .null) with
    | some (.strList missing), some cursor =>
      some (.fetchCitations missing cursor)
    | _, _ => none
  else none

/-- Variant selection for dimensions, `dir()` (alphabetical) order. -/
def dimensionsSelectVariant (idx : Int) (kw : List (String × JVal)) :
    Option DimensionsStage :=
  [((0 : Int), mkDimensionsFetchAuthors),
   ((2 : Int), mkDimensionsFetchCitations),
   ((1 : Int), mkDimensionsFetchPublications)].foldl
    (fun acc p => if p.1 = idx then p.2 kw else acc) none

/-- Deserialize a dimensions stage blob. -/
def dimensionsLoadStage (data : List (String × JVal)) :
    Option DimensionsStage :=
  match List.lookup "_index" data with
  | some (.int idx) => dimensionsSelectVariant idx (removeKey "_index" data)
  | _ => none

/-- Stage variants of crawlers/ieeexplore.py: `FetchPublications` (no
fields), `FetchCitations` with `missing_pub_ids: List[str]`. -/
inductive ExploreStage where
  | fetchPublications
  | fetchCitations (missing_pub_ids : List String)
deriving DecidableEq, Repr

/-- The stable `INDEX` discriminator of each ieeexplore stage variant. -/
def ExploreStage.INDEX : ExploreStage → Int
  | .fetchPublications => 0
  | .fetchCitations _ => 1

/-- Model of `dataclasses.asdict` on an ieeexplore stage. -/
def ExploreStage.asdict : ExploreStage → List (String × JVal)
  | .fetchPublications => []
  | .fetchCitations missing => [("missing_pub_ids", .strList missing)]

/-- Model of step.py `Step.stage_as_json` for an ieeexplore stage. -/
def exploreStageAsJson (stage : ExploreStage) (error : Option Nat) :
    List (String × JVal) :=
  stage.asdict ++ [("_index", .int stage.INDEX)] ++
    (match error with
     | some e => [("_error", .int e)]
     | none => [])

/-- Model of `Stage.FetchPublications(**data)` for ieeexplore (no declared
fields). -/
def mkExploreFetchPublications (kw : List (String × JVal)) :
    Option ExploreStage :=
  if kw.isEmpty then some .fetchPublications else none

/-- Model of `Stage.FetchCitations(**data)` for ieeexplore:
`missing_pub_ids` is mandatory. -/
def mkExploreFetchCitations (kw : List (String × JVal)) :
    Option ExploreStage :=
  if kw.all (fun p => ["missing_pub_ids"].contains p.1) then
    match List.lookup "missing_pub_ids" kw with
    | some (.strList missing) => some (.fetchCitations missing)
    | _ => none
  else none

/-- Variant selection for ieeexplore, `dir()` (alphabetical) order. -/
def exploreSelectVariant (idx : Int) (kw : List (String × JVal)) :
    Option ExploreStage :=
  [((1 : Int), mkExploreFetchCitations),
   ((0 : Int), mkExploreFetchPublications)].foldl
    (fun acc p => if p.1 = idx then p.2 kw else acc) none

/-- Deserialize an ieeexplore stage blob. -/
def exploreLoadStage (data : List (String × JVal)) : Option ExploreStage :=
  match List.lookup "_index" data with
  | some (.int idx) => exploreSelectVariant idx (removeKey "_index" data)
  | _ => none

/-! ## Scheduler error backoff -/

/-- Modelled from the spec: the fixed backoff ladder `ERROR_DELAYS`
(`1s, 10s, 60s, 10m, 1h, 24h`) is absent from src/server/crawler/
scheduler.py, whose `_crawl` loop only carries a `TODO except step error`
comment where the handler would live; only its declarations (`Step.error`
and the `_error` blob field of step.py) are in the tree.  Values follow the
spec, section 4.2 item 5 and section 7. -/
def ERROR_DELAYS : List Nat := [1, 10, 60, 600, 3600, 86400]

/-- Modelled from the spec: the exception branch of the scheduler loop.  On
any exception the consecutive-error counter (extracted from `_error`,
absent meaning zero) is bumped and clamped to the ladder, and a `Step`
re-using the same stage is built with the ladder delay. -/
def handleCrawlError {σ : Type} (stage : σ) (priorError : Option Nat) : Step σ :=
  let e := min (priorError.getD 0 + 1) (ERROR_DELAYS.length - 1)
  { delay := ERROR_DELAYS.getD e 0
    stage := some stage
    error := some e }

/-! ## database.py -/

/-- Row of the `Publication` table (database.py namedtuple), keyed by
`(owner, source, path)`. -/
structure PublicationRow where
  owner : String
  source : String
  path : String
  by_self : Bool
  name : Option String
  id : Option String
  year : Option Int
  ref : Option String
deriving DecidableEq, Repr

/-- Model of `INSERT OR REPLACE` on the `Publication` table: the row with
the same primary key (if any) is dropped and the new row stored. -/
def insertOrReplacePub (t : List PublicationRow) (r : PublicationRow) :
    List PublicationRow :=
  t.filter (fun x =>
    !(x.owner == r.owner && x.source == r.source && x.path == r.path)) ++ [r]

/-- Model of database.py `_adapt_step_publications`: citations first (with
`by_self = 0`), then the self publications (with `by_self = 1`). -/
def adaptStepPublications {σ : Type} (s : Step σ) : List (Publication × Bool) :=
  ((s.citations.map (fun c => c.2.map (fun cit => (cit, false)))).flatten) ++
    s.self_publications.map (fun pub => (pub, true))

/-- The publication-upsert portion of database.py
`Database.save_crawler_step`: every adapted publication is written with
`INSERT OR REPLACE` into the table; `none` models the crash of
`unique_path_name` on a pathless publication. -/
def saveStepPublications {σ : Type} (owner source : String) (s : Step σ)
    (t : List PublicationRow) : Option (List PublicationRow) :=
  (adaptStepPublications s).foldl
    (fun acc pb =>
      match acc with
      | none => none
      | some table =>
        match pb.1.uniquePathName with
        | none => none
        | some path =>
          some (insertOrReplacePub table
            { owner := owner
              source := source
              path := path
              by_self := pb.2
              name := pb.1.name
              id := pb.1.id
              year := pb.1.year
              ref := pb.1.ref }))
    (some t)

/-- Row of the `Source` table (database.py namedtuple), keyed by
`(owner, key)`.  The JSON blobs are carried opaquely. -/
structure SourceRow where
  owner : String
  key : String
  values_json : String
  task_json : Option String
  due : Int
deriving DecidableEq, Repr

/-- The UPDATE of database.py `update_source_values`: set `values_json` and
`due = 0` on every row matching `(owner, key)`; `task_json` is not
touched.  Also returns the rowcount. -/
def updateSourceRow (t : List SourceRow) (owner key vj : String) :
    List SourceRow × Nat :=
  (t.map (fun r =>
     if r.owner = owner ∧ r.key = key then
       { r with values_json := vj, due := 0 }
     else r),
   t.countP (fun r => r.owner == owner && r.key == key))

/-- One iteration of the loop in database.py `update_source_values`: run
the UPDATE and, when the rowcount is zero, INSERT a fresh row with
`task_json = null` and `due = 0`. -/
def updateSourceStep (owner : String) (table : List SourceRow)
    (kv : String × String) : List SourceRow :=
  let u := updateSourceRow table owner kv.1 kv.2
  if u.2 = 0 then
    u.1 ++ [{ owner := owner, key := kv.1, values_json := kv.2,
              task_json := none, due := 0 }]
  else u.1

/-- Model of database.py `Database.update_source_values`: for each source of
the mapping, update the row; when the rowcount is zero insert a fresh
one. -/
def updateSourceValues (t : List SourceRow) (owner : String)
    (sources : List (String × String)) : List SourceRow :=
  sources.foldl (updateSourceStep owner) t

/-! ## rest.py `get_metrics` i-indices -/

def MAX_I_INDEX : Nat := 20

/-- The body of the first loop of the i-indices computation in rest.py
`get_metrics`: for a nonzero citation count, bump the cell
`min(cc, MAX_I_INDEX) - 1`. -/
def bucketStep (acc : List Nat) (cc : Nat) : List Nat :=
  if cc ≠ 0 then
    acc.set (min cc MAX_I_INDEX - 1) (acc.getD (min cc MAX_I_INDEX - 1) 0 + 1)
  else acc

/-- The first loop of the i-indices computation in rest.py `get_metrics`,
starting from twenty zero cells. -/
def bucketize (citCount : List Nat) : List Nat :=
  citCount.foldl bucketStep (List.replicate MAX_I_INDEX 0)

/-- The cascade loop `for i in reversed(range(1, MAX_I_INDEX)):
a[i-1] += a[i]`, written as a countdown: the argument `i+1` performs
`a[i] += a[i+1]` and recurses on `i`. -/
def cascadeFrom : List Nat → Nat → List Nat
  | a, 0 => a
  | a, i + 1 => cascadeFrom (a.set i (a.getD i 0 + a.getD (i + 1) 0)) i

/-- The `i_indices` array computed by rest.py `get_metrics` from the list of
citation counts. -/
def iIndices (citCount : List Nat) : List Nat :=
  cascadeFrom (bucketize citCount) (MAX_I_INDEX - 1)

/-! ## Theorems -/

/-- A publication discovered as a self publication. -/
def pubP : Publication := { id := some "P", name := some "Paper P" }

/-- A step whose only record is `pubP`, authored by the user. -/
def stepSelf : Step Unit := { delay := 60, self_publications := [pubP] }

/-- A later step that rediscovers `pubP` only as a citation of another
publication. -/
def stepCite : Step Unit := { delay := 60, citations := [("Q", [pubP])] }

/-- C1: the claim says the publication upsert ORs `by_self` with the stored
flag so that `by_self = true` is monotone across `save_crawler_step` calls.
The code instead uses a plain `INSERT OR REPLACE`: a publication stored
with `by_self = true` by one step and rediscovered by a later step only as
a citation is overwritten with `by_self = false`.  This theorem evaluates
the embedded upsert on that two-step sequence. -/
theorem save_crawler_step_downgrades_by_self :
    (saveStepPublications "alice" "scholar" stepSelf []).map
        (List.map PublicationRow.by_self) = some [true] ∧
      ((saveStepPublications "alice" "scholar" stepSelf []).bind
          (saveStepPublications "alice" "scholar" stepCite)).map
        (List.map PublicationRow.by_self) = some [false] := by
  exact ⟨rfl, rfl⟩

/-- C2: on an exception from the adapter, the scheduler keeps the same
stage, bumps the consecutive-error counter to `min(error+1, |delays|-1)`,
takes the retry delay from the fixed ladder `[1s, 10s, 1m, 10m, 1h, 24h]`,
and the counter is persisted in the stage blob under `_error` (the blob
serialization is the one of step.py `stage_as_json`; the handler itself is
modelled from the spec, see `ERROR_DELAYS`). -/
theorem scheduler_error_backoff_spec :
    ERROR_DELAYS = [1, 10, 60, 600, 3600, 86400] ∧
      ∀ (stage : AminerStage) (prior : Option Nat),
        (handleCrawlError stage prior).stage = some stage ∧
          (handleCrawlError stage prior).error =
            some (min (prior.getD 0 + 1) 5) ∧
          (handleCrawlError stage prior).delay =
            ERROR_DELAYS.getD (min (prior.getD 0 + 1) 5) 0 ∧
          ("_error", JVal.int (min (prior.getD 0 + 1) 5)) ∈
            aminerStageAsJson stage (handleCrawlError stage prior).error := by
  refine ⟨rfl, fun stage prior => ⟨rfl, rfl, rfl, ?_⟩⟩
  cases stage <;>
    simp [aminerStageAsJson, handleCrawlError, AminerStage.asdict, ERROR_DELAYS]

/-- C5: serializing any stage variant (its field dict plus the stable
integer `_index`) and deserializing the blob back (selecting the variant
whose `INDEX` matches and constructing it from the remaining fields)
returns the original stage, for every stage variant of all six adapters:
aminer, researchgate, scholar, academics, dimensions and ieeexplore. -/
theorem stage_serialization_roundtrip :
    (∀ s : AminerStage, aminerLoadStage (aminerStageAsJson s none) = some s) ∧
      (∀ s : RgStage, rgLoadStage (rgStageAsJson s none) = some s) ∧
      (∀ s : ScholarStage,
        scholarLoadStage (scholarStageAsJson s none) = some s) ∧
      (∀ s : AcademicsStage,
        academicsLoadStage (academicsStageAsJson s none) = some s) ∧
      (∀ s : DimensionsStage,
        dimensionsLoadStage (dimensionsStageAsJson s none) = some s) ∧
      ∀ s : ExploreStage,
        exploreLoadStage (exploreStageAsJson s none) = some s := by
  refine ⟨?_, ?_, ?_, ?_, ?_, ?_⟩
  · intro s; cases s <;> rfl
  · intro s; cases s <;> rfl
  · intro s; cases s <;> rfl
  · intro s; cases s <;> rfl
  · intro s
    cases s with
    | fetchAuthors => rfl
    | fetchPublications known cursor => cases known <;> cases cursor <;> rfl
    | fetchCitations missing cursor => cases cursor <;> rfl
  · intro s; cases s <;> rfl

/-- C6: the claim says any username not matching the anchored pattern
`[a-z]+` from start to end is rejected with HTTP 400.  The code calls
`re.match`, which anchors only at the start, so `a1` — which does not
fully match the pattern — passes validation and registration is
accepted. -/
theorem register_prefix_match_bug :
    usernameFullMatch "a1" = false ∧
      registerValidate [] "a1" "hunter2" = .accepted := by
  exact ⟨rfl, rfl⟩

/-- Evaluation of the merger similarity on two named publications. -/
theorem similarity_eq_of_names {a b : Publication} {na nb : String}
    (ha : a.name = some na) (hb : b.name = some nb) :
    similarity a b = some (if titleTokens na = titleTokens nb then 1 else 0) := by
  unfold similarity
  rw [ha, hb]

/-- The merger similarity is undefined when the left publication is
nameless. -/
theorem similarity_none_left {a : Publication} (b : Publication)
    (ha : a.name = none) : similarity a b = none := by
  unfold similarity
  rw [ha]

/-- The merger similarity is undefined when the right publication is
nameless. -/
theorem similarity_none_right (a : Publication) {b : Publication}
    (hb : b.name = none) : similarity a b = none := by
  unfold similarity
  rw [hb]
  cases a.name <;> rfl

/-- C7: the merger similarity is 1 exactly on equal lowercased token
sequences and 0 otherwise, hence (whenever it is defined) bounded by
`[0, 1]`, and it is symmetric. -/
theorem similarity_contract :
    ∀ a b : Publication,
      similarity a b = similarity b a ∧
        (∀ q : ℚ, similarity a b = some q → 0 ≤ q ∧ q ≤ 1) ∧
        ∀ na nb : String, a.name = some na → b.name = some nb →
          similarity a b =
            some (if titleTokens na = titleTokens nb then 1 else 0) := by
  intro a b
  refine ⟨?_, ?_, fun na nb ha hb => similarity_eq_of_names ha hb⟩
  · cases ha : a.name with
    | none => rw [similarity_none_left b ha, similarity_none_right b ha]
    | some na =>
      cases hb : b.name with
      | none => rw [similarity_none_right a hb, similarity_none_left a hb]
      | some nb =>
        rw [similarity_eq_of_names ha hb, similarity_eq_of_names hb ha]
        by_cases h : titleTokens na = titleTokens nb
        · rw [if_pos h, if_pos h.symm]
        · rw [if_neg h, if_neg (fun hh => h hh.symm)]
  · intro q hq
    cases ha : a.name with
    | none => rw [similarity_none_left b ha] at hq; cases hq
    | some na =>
      cases hb : b.name with
      | none => rw [similarity_none_right a hb] at hq; cases hq
      | some nb =>
        rw [similarity_eq_of_names ha hb] at hq
        simp only [Option.some.injEq] at hq
        by_cases h : titleTokens na = titleTokens nb
        · rw [if_pos h] at hq
          constructor <;> simp [← hq]
        · rw [if_neg h] at hq
          constructor <;> simp [← hq]

/-- Witness for C7 at two concretely named publications whose names share
the token sequence. -/
theorem similarity_contract_witness :
    similarity { name := some "The TITLE" } { name := some "the,title" } =
        some (if titleTokens "The TITLE" = titleTokens "the,title" then 1 else 0) ∧
      (0 : ℚ) ≤ 1 ∧ (1 : ℚ) ≤ 1 := by
  obtain ⟨hsym, hbound, hval⟩ :=
    similarity_contract { name := some "The TITLE" } { name := some "the,title" }
  have hval1 : similarity { name := some "The TITLE" }
      ({ name := some "the,title" } : Publication) = some 1 := by
    rw [similarity_eq_of_names rfl rfl]
    norm_num [show titleTokens "The TITLE" = titleTokens "the,title" from by decide]
  exact ⟨hval "The TITLE" "the,title" rfl rfl, (hbound 1 hval1).1,
    (hbound 1 hval1).2⟩

/-- Lookup of a key absent from an association list is `none`. -/
theorem lookup_eq_none_keys {β : Type} :
    ∀ (l : List (String × β)) (k : String), k ∉ l.map Prod.fst →
      List.lookup k l = none := by
  intro l
  induction l with
  | nil => intro k _; rfl
  | cons x xs ih =>
    intro k hk
    simp only [List.map_cons, List.mem_cons] at hk
    push_neg at hk
    rw [show (x = (x.1, x.2)) from rfl, List.lookup_cons]
    have : (k == x.1) = false := by simp [hk.1]
    rw [this]
    exact ih k hk.2

/-- Lookup of a key in an association list with no duplicate keys, after
filtering: the unique entry survives exactly when it passes the filter. -/
theorem lookup_filter_nodup {β : Type} (p : String × β → Bool) :
    ∀ (l : List (String × β)) (k : String), (l.map Prod.fst).Nodup →
      List.lookup k (l.filter p) =
        (List.lookup k l).bind (fun v => if p (k, v) then some v else none) := by
  intro l
  induction l with
  | nil => intro k _; rfl
  | cons kv rest ih =>
    intro k hnd
    simp only [List.map_cons, List.nodup_cons] at hnd
    obtain ⟨hk, hrest⟩ := hnd
    by_cases hkk : k = kv.1
    · subst hkk
      by_cases hp : p kv
      · rw [List.filter_cons_of_pos hp,
          show (kv = (kv.1, kv.2)) from rfl, List.lookup_cons, List.lookup_cons]
        simp [hp]
      · rw [List.filter_cons_of_neg hp,
          show (kv = (kv.1, kv.2)) from rfl, List.lookup_cons]
        have hnone : List.lookup kv.1 (rest.filter p) = none := by
          refine lookup_eq_none_keys _ _ (fun hmem => hk ?_)
          obtain ⟨e, he, heq⟩ := List.mem_map.mp hmem
          exact List.mem_map.mpr ⟨e, List.mem_of_mem_filter he, heq⟩
        simp [hnone, hp]
    · have hne : (k == kv.1) = false := by simp [hkk]
      by_cases hp : p kv
      · rw [List.filter_cons_of_pos hp,
          show (kv = (kv.1, kv.2)) from rfl, List.lookup_cons, List.lookup_cons,
          hne, ih k hrest]
      · rw [List.filter_cons_of_neg hp,
          show (kv = (kv.1, kv.2)) from rfl, List.lookup_cons, hne, ih k hrest]

/-- The cleanup sweep does not change whether the current remote is due:
an entry in the future survives the sweep, an expired or absent entry
yields due time 0, which is in the past for any non-negative clock. -/
theorem rateLimitClean_due_iff (m : List (String × Int)) (lastC now : Int)
    (remote : String) (hnow : 0 ≤ now) (hnd : (m.map Prod.fst).Nodup) :
    ((List.lookup remote (rateLimitClean m lastC now).1).getD 0 ≤ now ↔
      (List.lookup remote m).getD 0 ≤ now) := by
  unfold rateLimitClean
  split
  · simp only
    rw [lookup_filter_nodup _ m remote hnd]
    cases hlk : List.lookup remote m with
    | none => simp
    | some v =>
      by_cases hv : now < v
      · simp [hv]
      · simp [hv, hnow, not_lt.mp hv]
  · exact Iff.rfl

/-- C9: `apply_rate_limit` raises 429 exactly when the configured delay is
nonzero and the remote address has a recorded next-allowed-time strictly
after the current time; with a delay of zero — as produced by an empty
`fail_retry_delay` value — no request is ever rejected. -/
theorem rate_limit_429_iff :
    ∀ (delay : Int) (m : List (String × Int)) (lastC now : Int)
      (remote : String),
      0 ≤ now → (m.map Prod.fst).Nodup →
      (applyRateLimit delay m lastC now remote = none ↔
        delay ≠ 0 ∧ now < (List.lookup remote m).getD 0) ∧
        parseDelay "" = some 0 := by
  intro delay m lastC now remote hnow hnd
  refine ⟨?_, rfl⟩
  unfold applyRateLimit
  by_cases hd : delay = 0
  · simp [hd]
  · rw [if_neg hd]
    simp only [ne_eq, hd, not_false_iff, true_and]
    by_cases hdue : (List.lookup remote m).getD 0 ≤ now
    · rw [if_pos ((rateLimitClean_due_iff m lastC now remote hnow hnd).mpr hdue)]
      simp [not_lt.mpr hdue]
    · rw [if_neg (fun h =>
        hdue ((rateLimitClean_due_iff m lastC now remote hnow hnd).mp h))]
      simp [lt_of_not_ge hdue]

/-- Witness for C9: a remote with a future due time is rejected, and the
empty delay string parses to zero. -/
theorem rate_limit_429_iff_witness :
    applyRateLimit 1 [("10.0.0.1", 5)] 0 2 "10.0.0.1" = none ∧
      parseDelay "" = some 0 := by
  obtain ⟨hiff, hp⟩ :=
    rate_limit_429_iff 1 [("10.0.0.1", 5)] 0 2 "10.0.0.1" (by decide) (by decide)
  exact ⟨hiff.mpr (by decide), hp⟩

/-- The value removed by `popKey` agrees with association-list lookup. -/
theorem popKey_fst {α : Type} :
    ∀ (l : List (String × α)) (k : String), (popKey l k).1 = List.lookup k l := by
  intro l
  induction l with
  | nil => intro k; rfl
  | cons x xs ih =>
    intro k
    rw [show (x = (x.1, x.2)) from rfl, List.lookup_cons]
    unfold popKey
    by_cases hk : x.1 = k
    · subst hk
      simp
    · have hbf : (k == x.1) = false := beq_false_of_ne (Ne.symm hk)
      simp only [hk, if_false, hbf]
      exact ih k

/-- Popping an absent key leaves the dict unchanged. -/
theorem popKey_snd_of_none {α : Type} :
    ∀ (l : List (String × α)) (k : String),
      (popKey l k).1 = none → (popKey l k).2 = l := by
  intro l
  induction l with
  | nil => intro k _; rfl
  | cons x xs ih =>
    intro k h
    unfold popKey at h ⊢
    by_cases hk : x.1 = k
    · simp [hk] at h
    · simp only [hk, if_false] at h ⊢
      rw [ih k h]

/-- A successful token update names a stored user. -/
theorem setUserToken_some_mem :
    ∀ (users : List (String × UserDetails)) (u : String) (tok : Option String)
      (out : List (String × UserDetails)),
      setUserToken users u tok = some out → u ∈ users.map Prod.fst := by
  intro users
  induction users with
  | nil => intro u tok out h; cases h
  | cons x xs ih =>
    intro u tok out h
    unfold setUserToken at h
    by_cases hk : x.1 = u
    · simp [hk]
    · simp only [hk, if_false] at h
      cases hrec : setUserToken xs u tok with
      | none => rw [hrec] at h; cases h
      | some r => exact List.mem_cons_of_mem _ (ih u tok r hrec)

/-- A successful user deletion names a stored user. -/
theorem delUser_some_mem :
    ∀ (users : List (String × UserDetails)) (u : String)
      (out : List (String × UserDetails)),
      delUser users u = some out → u ∈ users.map Prod.fst := by
  intro users
  induction users with
  | nil => intro u out h; cases h
  | cons x xs ih =>
    intro u out h
    unfold delUser at h
    by_cases hk : x.1 = u
    · simp [hk]
    · simp only [hk, if_false] at h
      cases hrec : delUser xs u with
      | none => rw [hrec] at h; cases h
      | some r => exact List.mem_cons_of_mem _ (ih u r hrec)

/-- C10: for a token not mapped to any user, `Users.logout` and
`Users.delete` return `False`, leave the whole state untouched and persist
nothing; they return `True` only when the token maps to a stored user. -/
theorem logout_delete_unknown_token :
    ∀ (st : UsersState) (token : String),
      (List.lookup token st.tokenToUser = none →
        usersLogout st token = some (false, st, false) ∧
          usersDelete st token = some (false, st, false)) ∧
        (∀ st' sv, usersLogout st token = some (true, st', sv) →
          ∃ u, List.lookup token st.tokenToUser = some u ∧
            u ∈ st.users.map Prod.fst) ∧
        ∀ st' sv, usersDelete st token = some (true, st', sv) →
          ∃ u, List.lookup token st.tokenToUser = some u ∧
            u ∈ st.users.map Prod.fst := by
  intro st token
  refine ⟨?_, ?_, ?_⟩
  · intro hnone
    have h1 : (popKey st.tokenToUser token).1 = none := by
      rw [popKey_fst]; exact hnone
    have h2 : (popKey st.tokenToUser token).2 = st.tokenToUser :=
      popKey_snd_of_none _ _ h1
    have hpk : popKey st.tokenToUser token = (none, st.tokenToUser) := by
      rw [Prod.ext_iff]; exact ⟨h1, h2⟩
    constructor
    · unfold usersLogout
      rw [hpk]
    · unfold usersDelete
      rw [hpk]
  · intro st' sv h
    unfold usersLogout at h
    rcases hpk : popKey st.tokenToUser token with ⟨user, m⟩
    rw [hpk] at h
    dsimp only at h
    cases user with
    | none => cases h
    | some u =>
      dsimp only at h
      by_cases hu : u = ""
      · rw [if_pos hu] at h; cases h
      · rw [if_neg hu] at h
        cases hset : setUserToken st.users u none with
        | none => rw [hset] at h; cases h
        | some users =>
          rw [hset] at h
          refine ⟨u, ?_, setUserToken_some_mem _ _ _ _ hset⟩
          rw [← popKey_fst, hpk]
  · intro st' sv h
    unfold usersDelete at h
    rcases hpk : popKey st.tokenToUser token with ⟨user, m⟩
    rw [hpk] at h
    dsimp only at h
    cases user with
    | none => cases h
    | some u =>
      dsimp only at h
      by_cases hu : u = ""
      · rw [if_pos hu] at h; cases h
      · rw [if_neg hu] at h
        cases hdel : delUser st.users u with
        | none => rw [hdel] at h; cases h
        | some users =>
          rw [hdel] at h
          refine ⟨u, ?_, delUser_some_mem _ _ _ hdel⟩
          rw [← popKey_fst, hpk]

/-- A small user store for the C10 witness: one user logged in under token
`t1`. -/
def usersState0 : UsersState :=
  { users := [("bob", { salt := "s", password := "h", token := some "t1" })]
    tokenToUser := [("t1", "bob")] }

/-- Witness for C10: an unknown token makes both operations return `False`
without changing or saving anything. -/
theorem logout_delete_unknown_token_witness :
    usersLogout usersState0 "zz" = some (false, usersState0, false) ∧
      usersDelete usersState0 "zz" = some (false, usersState0, false) :=
  (logout_delete_unknown_token usersState0 "zz").1 (by decide)

/-- A pre-existing source row with a saved task blob. -/
def srcRow0 : SourceRow :=
  { owner := "alice", key := "scholar", values_json := "v0",
    task_json := some "blob", due := 55 }

/-- The row produced for `srcRow0` by an update of its values. -/
def srcRow1 : SourceRow :=
  { owner := "alice", key := "scholar", values_json := "v1",
    task_json := some "blob", due := 0 }

/-- C3 counterexample: the claim says a changed source row ends with
`due = 0` and `task_json = null` on the update path as well, but the UPDATE
statement only sets `values_json` and `due`; the saved task blob
survives. -/
theorem update_source_values_task_json_cex :
    updateSourceValues [srcRow0] "alice" [("scholar", "v1")] = [srcRow1] ∧
      srcRow1.task_json = some "blob" ∧ srcRow1.due = 0 :=
  ⟨rfl, rfl, rfl⟩

/-- Traceability of the task blob of a matching row to the initial table:
either it was nulled (freshly inserted row) or a matching initial row
already carried it. -/
def taskJsonOrigin (t₀ : List SourceRow) (owner key : String)
    (r : SourceRow) : Prop :=
  r.task_json = none ∨
    ∃ r₀ ∈ t₀, r₀.owner = owner ∧ r₀.key = key ∧ r₀.task_json = r.task_json

/-- All matching rows of a table have a traceable task blob. -/
def originOk (t₀ : List SourceRow) (owner key : String)
    (t : List SourceRow) : Prop :=
  ∀ r ∈ t, r.owner = owner → r.key = key → taskJsonOrigin t₀ owner key r

/-- All matching rows of a table have `due = 0` and a traceable task
blob. -/
def dueReset (t₀ : List SourceRow) (owner key : String)
    (t : List SourceRow) : Prop :=
  ∀ r ∈ t, r.owner = owner → r.key = key →
    r.due = 0 ∧ taskJsonOrigin t₀ owner key r

/-- Rows of the updated table come from rows of the old table with only
`values_json` and `due` rewritten (and only on match), or are the freshly
inserted row with `task_json = none` and `due = 0`. -/
theorem mem_updateSourceStep {owner : String} {table : List SourceRow}
    {kv : String × String} {r : SourceRow}
    (hr : r ∈ updateSourceStep owner table kv) :
    (∃ r' ∈ table,
      r = (if r'.owner = owner ∧ r'.key = kv.1 then
             { r' with values_json := kv.2, due := 0 }
           else r')) ∨
      r = { owner := owner, key := kv.1, values_json := kv.2,
            task_json := none, due := 0 } := by
  unfold updateSourceStep updateSourceRow at hr
  by_cases hc : (table.countP (fun x => x.owner == owner && x.key == kv.1)) = 0
  · rw [if_pos hc] at hr
    rcases List.mem_append.mp hr with hmem | hnew
    · obtain ⟨r', hr', heq⟩ := List.mem_map.mp hmem
      exact Or.inl ⟨r', hr', heq.symm⟩
    · exact Or.inr (by simpa using hnew)
  · rw [if_neg hc] at hr
    obtain ⟨r', hr', heq⟩ := List.mem_map.mp hr
    exact Or.inl ⟨r', hr', heq.symm⟩

/-- The origin invariant survives one loop iteration. -/
theorem originOk_step {t₀ : List SourceRow} {owner key : String}
    {t : List SourceRow} (h : originOk t₀ owner key t) (kv : String × String) :
    originOk t₀ owner key (updateSourceStep owner t kv) := by
  intro r hr hro hrk
  rcases mem_updateSourceStep hr with ⟨r', hr', heq⟩ | hnew
  · by_cases hc : r'.owner = owner ∧ r'.key = kv.1
    · rw [if_pos hc] at heq
      subst heq
      exact h r' hr' hc.1 hrk
    · rw [if_neg hc] at heq
      subst heq
      exact h r hr' hro hrk
  · subst hnew
    exact Or.inl rfl

/-- The due-reset invariant survives one loop iteration. -/
theorem dueReset_step {t₀ : List SourceRow} {owner key : String}
    {t : List SourceRow} (h : dueReset t₀ owner key t) (kv : String × String) :
    dueReset t₀ owner key (updateSourceStep owner t kv) := by
  intro r hr hro hrk
  rcases mem_updateSourceStep hr with ⟨r', hr', heq⟩ | hnew
  · by_cases hc : r'.owner = owner ∧ r'.key = kv.1
    · rw [if_pos hc] at heq
      subst heq
      exact ⟨rfl, (h r' hr' hc.1 hrk).2⟩
    · rw [if_neg hc] at heq
      subst heq
      exact h r hr' hro hrk
  · subst hnew
    exact ⟨rfl, Or.inl rfl⟩

/-- Processing the mapping entry for `key` establishes the due-reset
invariant. -/
theorem dueReset_establish {t₀ : List SourceRow} {owner key : String}
    {t : List SourceRow} (h : originOk t₀ owner key t) (vj : String) :
    dueReset t₀ owner key (updateSourceStep owner t (key, vj)) := by
  intro r hr hro hrk
  rcases mem_updateSourceStep hr with ⟨r', hr', heq⟩ | hnew
  · by_cases hc : r'.owner = owner ∧ r'.key = key
    · rw [if_pos hc] at heq
      subst heq
      exact ⟨rfl, h r' hr' hc.1 hc.2⟩
    · rw [if_neg hc] at heq
      subst heq
      exact absurd ⟨hro, hrk⟩ hc
  · subst hnew
    exact ⟨rfl, Or.inl rfl⟩

/-- The due-reset invariant survives the rest of the fold. -/
theorem dueReset_foldl {t₀ : List SourceRow} {owner key : String} :
    ∀ (rest : List (String × String)) {t : List SourceRow},
      dueReset t₀ owner key t →
      dueReset t₀ owner key (rest.foldl (updateSourceStep owner) t) := by
  intro rest
  induction rest with
  | nil => intro t h; exact h
  | cons kv rest ih => intro t h; exact ih (dueReset_step h kv)

/-- C3 (amended): after `update_source_values` touches a source key, every
row for that `(owner, key)` has `due = 0`; its `task_json` is null exactly
on the insert path, while the update path leaves the stored task blob
unchanged (the claim as stated also demanded `task_json = null` on the
update path, which `update_source_values_task_json_cex` refutes). -/
theorem update_source_values_due_reset :
    ∀ (t : List SourceRow) (owner key : String)
      (sources : List (String × String)),
      key ∈ sources.map Prod.fst →
      ∀ r ∈ updateSourceValues t owner sources,
        r.owner = owner → r.key = key →
        r.due = 0 ∧ taskJsonOrigin t owner key r := by
  intro t owner key sources hkey
  suffices h : ∀ (srcs : List (String × String)) (table : List SourceRow),
      originOk t owner key table → key ∈ srcs.map Prod.fst →
      dueReset t owner key (srcs.foldl (updateSourceStep owner) table) by
    have h0 : originOk t owner key t := by
      intro r hr hro hrk
      exact Or.inr ⟨r, hr, hro, hrk, rfl⟩
    exact h sources t h0 hkey
  intro srcs
  induction srcs with
  | nil => intro table _ hmem; cases hmem
  | cons kv rest ih =>
    intro table hOri hmem
    by_cases hk : kv.1 = key
    · have hkv : kv = (key, kv.2) := by
        rw [Prod.ext_iff]; exact ⟨hk, rfl⟩
      rw [List.foldl_cons, hkv]
      exact dueReset_foldl rest (dueReset_establish hOri kv.2)
    · rw [List.map_cons, List.mem_cons] at hmem
      rcases hmem with heq | hmem
      · exact absurd heq.symm hk
      · rw [List.foldl_cons]
        exact ih (updateSourceStep owner table kv) (originOk_step hOri kv) hmem

/-- Witness for C3 at a one-row table whose source values change. -/
theorem update_source_values_due_reset_witness :
    srcRow1.due = 0 ∧ taskJsonOrigin [srcRow0] "alice" "scholar" srcRow1 :=
  update_source_values_due_reset [srcRow0] "alice" "scholar"
    [("scholar", "v1")] (by decide) srcRow1 (by decide) rfl rfl

/-- Bumping a bucket keeps the cell count. -/
theorem bucketStep_length (acc : List Nat) (cc : Nat) :
    (bucketStep acc cc).length = acc.length := by
  unfold bucketStep
  split
  · exact List.length_set ..
  · rfl

/-- The bucket loop keeps the cell count. -/
theorem foldl_bucketStep_length :
    ∀ (l : List Nat) (init : List Nat),
      (List.foldl bucketStep init l).length = init.length := by
  intro l
  induction l with
  | nil => intro init; rfl
  | cons cc l ih =>
    intro init
    rw [List.foldl_cons, ih (bucketStep init cc), bucketStep_length]

/-- One bucket bump, cell-wise. -/
theorem bucketStep_getD (acc : List Nat) (cc k : Nat) (hk : k < acc.length) :
    (bucketStep acc cc).getD k 0 =
      acc.getD k 0 +
        (if cc ≠ 0 ∧ min cc MAX_I_INDEX - 1 = k then 1 else 0) := by
  unfold bucketStep
  by_cases h0 : cc ≠ 0
  · rw [if_pos h0]
    by_cases hj : min cc MAX_I_INDEX - 1 = k
    · rw [if_pos ⟨h0, hj⟩, hj]
      simp [List.getD_eq_getElem?_getD, List.getElem?_set_self hk]
    · rw [if_neg (fun hand => hj hand.2)]
      simp [List.getD_eq_getElem?_getD, List.getElem?_set_ne hj]
  · rw [if_neg h0, if_neg (fun hand => h0 hand.1)]
    rfl

/-- The bucket loop, cell-wise: cell `k` counts the inputs that land in
bucket `k`. -/
theorem foldl_bucketStep_getD :
    ∀ (l : List Nat) (init : List Nat) (k : Nat), k < init.length →
      (List.foldl bucketStep init l).getD k 0 =
        init.getD k 0 +
          l.countP (fun cc =>
            decide (cc ≠ 0) && decide (min cc MAX_I_INDEX - 1 = k)) := by
  intro l
  induction l with
  | nil => intro init k _; simp [List.countP_nil]
  | cons cc l ih =>
    intro init k hk
    rw [List.foldl_cons,
      ih (bucketStep init cc) k (by rw [bucketStep_length]; exact hk),
      bucketStep_getD init cc k hk, List.countP_cons]
    have : ((fun cc =>
        decide (cc ≠ 0) && decide (min cc MAX_I_INDEX - 1 = k)) cc = true) ↔
        (cc ≠ 0 ∧ min cc MAX_I_INDEX - 1 = k) := by
      simp
    by_cases hcond : cc ≠ 0 ∧ min cc MAX_I_INDEX - 1 = k
    · rw [if_pos hcond, if_pos (this.mpr hcond)]
      omega
    · rw [if_neg hcond, if_neg (fun hb => hcond (this.mp hb))]
      omega

/-- The cascade keeps the cell count. -/
theorem cascadeFrom_length :
    ∀ (i : Nat) (a : List Nat), (cascadeFrom a i).length = a.length := by
  intro i
  induction i with
  | zero => intro a; rfl
  | succ i ih =>
    intro a
    unfold cascadeFrom
    rw [ih, List.length_set]

/-- The cascade, cell-wise: after running from `i` down, cell `j ≤ i` holds
the suffix sum of the original cells `j..i` and later cells are
untouched. -/
theorem cascadeFrom_getD :
    ∀ (i : Nat) (a : List Nat), i < a.length → ∀ j,
      (cascadeFrom a i).getD j 0 =
        if j ≤ i then ∑ m ∈ Finset.Ico j (i + 1), a.getD m 0
        else a.getD j 0 := by
  intro i
  induction i with
  | zero =>
    intro a _ j
    cases j with
    | zero =>
      rw [if_pos (le_refl 0)]
      rw [Finset.sum_Ico_succ_top (by omega)]
      simp [cascadeFrom]
    | succ j =>
      rw [if_neg (by omega)]
      rfl
  | succ i ih =>
    intro a ha j
    have hi : i < a.length := by omega
    unfold cascadeFrom
    set v := a.getD i 0 + a.getD (i + 1) 0 with hv
    have hlen : i < (a.set i v).length := by rw [List.length_set]; exact hi
    rw [ih (a.set i v) hlen j]
    have hset_ne : ∀ m, m ≠ i → (a.set i v).getD m 0 = a.getD m 0 := by
      intro m hm
      simp [List.getD_eq_getElem?_getD, List.getElem?_set_ne (Ne.symm hm)]
    have hset_self : (a.set i v).getD i 0 = v := by
      simp [List.getD_eq_getElem?_getD, List.getElem?_set_self hi]
    by_cases hji : j ≤ i
    · rw [if_pos hji, if_pos (by omega)]
      calc
        ∑ m ∈ Finset.Ico j (i + 1), (a.set i v).getD m 0 =
            (∑ m ∈ Finset.Ico j i, (a.set i v).getD m 0) +
              (a.set i v).getD i 0 :=
          Finset.sum_Ico_succ_top (by omega) _
        _ = (∑ m ∈ Finset.Ico j i, a.getD m 0) +
              (a.getD i 0 + a.getD (i + 1) 0) := by
          rw [hset_self]
          congr 1
          exact Finset.sum_congr rfl
            (fun m hm => hset_ne m (by
              have := (Finset.mem_Ico.mp hm).2; omega))
        _ = ((∑ m ∈ Finset.Ico j i, a.getD m 0) + a.getD i 0) +
              a.getD (i + 1) 0 := (Nat.add_assoc _ _ _).symm
        _ = (∑ m ∈ Finset.Ico j (i + 1), a.getD m 0) + a.getD (i + 1) 0 := by
          rw [Finset.sum_Ico_succ_top (by omega)]
        _ = ∑ m ∈ Finset.Ico j (i + 2), a.getD m 0 :=
          (Finset.sum_Ico_succ_top (show j ≤ i + 1 by omega) _).symm
    · by_cases hj : j ≤ i + 1
      · have hj1 : j = i + 1 := by omega
        rw [if_neg hji, if_pos hj, hj1]
        rw [hset_ne (i + 1) (by omega)]
        rw [Finset.sum_Ico_succ_top (by omega)]
        simp
      · rw [if_neg hji, if_neg hj]
        exact hset_ne j (by omega)

/-- Summing the bucket counts over `j..19` counts the inputs of value at
least `j + 1`. -/
theorem sum_countP_buckets :
    ∀ (l : List Nat) (j : Nat), j < MAX_I_INDEX →
      (∑ m ∈ Finset.Ico j MAX_I_INDEX,
          l.countP (fun cc =>
            decide (cc ≠ 0) && decide (min cc MAX_I_INDEX - 1 = m))) =
        l.countP (fun cc => decide (j + 1 ≤ cc)) := by
  intro l
  induction l with
  | nil => intro j _; simp [List.countP_nil]
  | cons cc l ih =>
    intro j hj
    simp only [List.countP_cons]
    rw [Finset.sum_add_distrib, ih j hj]
    congr 1
    by_cases h0 : cc = 0
    · subst h0
      simp
    · have hdec : ∀ m : Nat,
          ((fun cc =>
            decide (cc ≠ 0) && decide (min cc MAX_I_INDEX - 1 = m)) cc) =
            decide (min cc MAX_I_INDEX - 1 = m) := by
        intro m
        simp [h0]
      simp only [hdec, decide_eq_true_eq]
      rw [Finset.sum_ite_eq]
      simp only [Finset.mem_Ico, decide_eq_true_eq]
      have hj20 : j < 20 := hj
      have hiff : (j ≤ min cc MAX_I_INDEX - 1 ∧
          min cc MAX_I_INDEX - 1 < MAX_I_INDEX) ↔ j + 1 ≤ cc := by
        show (j ≤ min cc 20 - 1 ∧ min cc 20 - 1 < 20) ↔ j + 1 ≤ cc
        omega
      by_cases hc : j + 1 ≤ cc
      · rw [if_pos (hiff.mpr hc), if_pos hc]
      · rw [if_neg (fun hx => hc (hiff.mp hx)), if_neg hc]

/-- C8: the `i_indices` array has exactly twenty cells, cell `j` counts the
publications with at least `j + 1` citations (counts of twenty or more all
land in the last cell), and the array is monotonically non-increasing. -/
theorem i_indices_shape :
    ∀ l : List Nat,
      (iIndices l).length = MAX_I_INDEX ∧
        (∀ j, j + 1 < MAX_I_INDEX →
          (iIndices l).getD (j + 1) 0 ≤ (iIndices l).getD j 0) ∧
        ∀ j, j < MAX_I_INDEX →
          (iIndices l).getD j 0 = l.countP (fun cc => decide (j + 1 ≤ cc)) := by
  intro l
  have hblen : (bucketize l).length = MAX_I_INDEX := by
    unfold bucketize
    rw [foldl_bucketStep_length]
    exact List.length_replicate ..
  have hrep : ∀ m : Nat, ((List.replicate MAX_I_INDEX 0 : List Nat)).getD m 0 = 0 := by
    intro m
    rw [List.getD_eq_getElem?_getD, List.getElem?_replicate]
    split <;> rfl
  have hbget : ∀ k, k < MAX_I_INDEX → (bucketize l).getD k 0 =
      l.countP (fun cc =>
        decide (cc ≠ 0) && decide (min cc MAX_I_INDEX - 1 = k)) := by
    intro k hk
    unfold bucketize
    rw [foldl_bucketStep_getD l _ k (by simpa using hk), hrep, Nat.zero_add]
  have hchar : ∀ j, j < MAX_I_INDEX →
      (iIndices l).getD j 0 = l.countP (fun cc => decide (j + 1 ≤ cc)) := by
    intro j hj
    unfold iIndices
    rw [cascadeFrom_getD (MAX_I_INDEX - 1) (bucketize l)
      (by rw [hblen]; decide) j]
    rw [if_pos (by
      show j ≤ MAX_I_INDEX - 1
      have hj20 : j < 20 := hj
      show j ≤ 19
      omega)]
    rw [show (MAX_I_INDEX - 1 + 1) = MAX_I_INDEX from by decide]
    rw [Finset.sum_congr rfl (fun m hm => hbget m (Finset.mem_Ico.mp hm).2)]
    exact sum_countP_buckets l j hj
  refine ⟨?_, ?_, hchar⟩
  · unfold iIndices
    rw [cascadeFrom_length, hblen]
  · intro j hj
    rw [hchar j (by omega), hchar (j + 1) hj]
    apply List.countP_mono_left
    intro cc _ hcc
    simp only [decide_eq_true_eq] at hcc ⊢
    omega

/-- Witness for C8 at the counts `[3, 25, 1]`: twenty cells, the first step
of monotonicity, and the clamped last cell counting the one value of at
least twenty. -/
theorem i_indices_shape_witness :
    (iIndices [3, 25, 1]).length = MAX_I_INDEX ∧
      (iIndices [3, 25, 1]).getD 1 0 ≤ (iIndices [3, 25, 1]).getD 0 0 ∧
      (iIndices [3, 25, 1]).getD 19 0 =
        List.countP (fun cc => decide (20 ≤ cc)) [3, 25, 1] := by
  obtain ⟨h1, h2, h3⟩ := i_indices_shape [3, 25, 1]
  exact ⟨h1, h2 0 (by decide), h3 19 (by decide)⟩

/-- Keys after a dict insert: the inserted key and the old keys. -/
theorem mem_keys_insertRep :
    ∀ (m : List (String × Author)) (p : String) (a : Author) (k : String),
      k ∈ (insertRep m p a).map Prod.fst ↔ k ∈ m.map Prod.fst ∨ k = p := by
  intro m
  induction m with
  | nil =>
    intro p a k
    simp [insertRep]
  | cons x xs ih =>
    intro p a k
    unfold insertRep
    by_cases hx : x.1 = p
    · rw [if_pos hx]
      simp only [List.map_cons, List.mem_cons, hx]
      tauto
    · rw [if_neg hx]
      simp only [List.map_cons, List.mem_cons, ih p a k]
      tauto

/-- Entries after a dict insert come from the old dict or are the inserted
pair. -/
theorem mem_insertRep :
    ∀ (m : List (String × Author)) (p : String) (a : Author)
      (k : String) (b : Author),
      (k, b) ∈ insertRep m p a → (k, b) ∈ m ∨ (k = p ∧ b = a) := by
  intro m
  induction m with
  | nil =>
    intro p a k b h
    simp [insertRep] at h
    exact Or.inr ⟨h.1, h.2⟩
  | cons x xs ih =>
    intro p a k b h
    unfold insertRep at h
    by_cases hx : x.1 = p
    · rw [if_pos hx] at h
      rcases List.mem_cons.mp h with h' | h'
      · have : k = x.1 ∧ b = a := by
          rw [Prod.ext_iff] at h'
          exact ⟨h'.1, h'.2⟩
        exact Or.inr ⟨this.1.trans hx, this.2⟩
      · exact Or.inl (List.mem_cons_of_mem _ h')
    · rw [if_neg hx] at h
      rcases List.mem_cons.mp h with h' | h'
      · exact Or.inl (h' ▸ List.mem_cons_self ..)
      · rcases ih p a k b h' with h'' | h''
        · exact Or.inl (List.mem_cons_of_mem _ h'')
        · exact Or.inr h''

/-- A dict insert keeps the keys duplicate-free. -/
theorem nodup_keys_insertRep :
    ∀ (m : List (String × Author)) (p : String) (a : Author),
      (m.map Prod.fst).Nodup → ((insertRep m p a).map Prod.fst).Nodup := by
  intro m
  induction m with
  | nil =>
    intro p a _
    simp [insertRep]
  | cons x xs ih =>
    intro p a hnd
    simp only [List.map_cons, List.nodup_cons] at hnd
    unfold insertRep
    by_cases hx : x.1 = p
    · rw [if_pos hx]
      simp only [List.map_cons, List.nodup_cons]
      exact hnd
    · rw [if_neg hx]
      simp only [List.map_cons, List.nodup_cons]
      refine ⟨?_, ih p a hnd.2⟩
      intro hmem
      rcases (mem_keys_insertRep xs p a x.1).mp hmem with h | h
      · exact hnd.1 h
      · exact hx h

/-- Full behaviour of the inner loop of `fix_authors` on one author list:
outputs are paths, dict keys only grow, every embedded author's path lands
in the dict, dict values keep carrying their own path as key, keys stay
duplicate-free. -/
theorem fixElems_spec :
    ∀ (es : List AuthorRef) (acc acc' : List (String × Author))
      (es' : List AuthorRef),
      fixElems acc es = some (acc', es') →
      (∀ r ∈ es', refIsPath r = true) ∧
        (∀ k, k ∈ acc.map Prod.fst → k ∈ acc'.map Prod.fst) ∧
        (∀ a p, .author a ∈ es → a.uniquePathName = some p →
          p ∈ acc'.map Prod.fst) ∧
        (∀ k a, (k, a) ∈ acc' →
          (k, a) ∈ acc ∨ a.uniquePathName = some k) ∧
        ((acc.map Prod.fst).Nodup → (acc'.map Prod.fst).Nodup) := by
  intro es
  induction es with
  | nil =>
    intro acc acc' es' h
    unfold fixElems at h
    injection h with h
    rw [Prod.ext_iff] at h
    obtain ⟨h1, h2⟩ := h
    subst h1; subst h2
    refine ⟨by simp, fun k hk => hk, by simp, fun k a hka => Or.inl hka,
      fun hnd => hnd⟩
  | cons e rest ih =>
    intro acc acc' es' h
    cases e with
    | path p =>
      simp only [fixElems] at h
      cases hrec : fixElems acc rest with
      | none => rw [hrec] at h; cases h
      | some pr =>
        obtain ⟨acc₁, rest'⟩ := pr
        rw [hrec] at h
        simp only [Option.some.injEq, Prod.mk.injEq] at h
        obtain ⟨h1, h2⟩ := h
        subst h1
        subst h2
        obtain ⟨hAll, hMono, hCover, hVal, hNd⟩ := ih acc acc₁ rest' hrec
        refine ⟨?_, hMono, ?_, hVal, hNd⟩
        · intro r hr
          rcases List.mem_cons.mp hr with h' | h'
          · rw [h']; rfl
          · exact hAll r h'
        · intro a q ha hq
          rcases List.mem_cons.mp ha with h' | h'
          · cases h'
          · exact hCover a q h' hq
    | author a =>
      simp only [fixElems] at h
      cases hpn : a.uniquePathName with
      | none => rw [hpn] at h; cases h
      | some p =>
        simp only [hpn] at h
        cases hrec : fixElems (insertRep acc p a) rest with
        | none => rw [hrec] at h; cases h
        | some pr =>
          obtain ⟨acc₁, rest'⟩ := pr
          rw [hrec] at h
          simp only [Option.some.injEq, Prod.mk.injEq] at h
          obtain ⟨h1, h2⟩ := h
          subst h1
          subst h2
          obtain ⟨hAll, hMono, hCover, hVal, hNd⟩ :=
            ih (insertRep acc p a) acc₁ rest' hrec
          refine ⟨?_, ?_, ?_, ?_, ?_⟩
          · intro r hr
            rcases List.mem_cons.mp hr with h' | h'
            · rw [h']; rfl
            · exact hAll r h'
          · intro k hk
            exact hMono k ((mem_keys_insertRep acc p a k).mpr (Or.inl hk))
          · intro b q hb hq
            rcases List.mem_cons.mp hb with h' | h'
            · have hba : b = a := by injection h'
              subst hba
              have hqp : q = p := by
                rw [hpn] at hq
                injection hq with hh
                exact hh.symm
              subst hqp
              exact hMono q ((mem_keys_insertRep acc q b q).mpr (Or.inr rfl))
            · exact hCover b q h' hq
          · intro k b hkb
            rcases hVal k b hkb with h' | h'
            · rcases mem_insertRep acc p a k b h' with h'' | h''
              · exact Or.inl h''
              · refine Or.inr ?_
                rw [h''.2, hpn, h''.1]
            · exact Or.inr h'
          · intro hnd
            exact hNd (nodup_keys_insertRep acc p a hnd)

/-- Behaviour of the `fix_authors` loop over the self-publication list,
lifted from `fixElems_spec`. -/
theorem fixPubs_spec :
    ∀ (ps : List Publication) (acc acc' : List (String × Author))
      (ps' : List Publication),
      fixPubs acc ps = some (acc', ps') →
      (∀ pub ∈ ps', ∀ r ∈ pub.authors, refIsPath r = true) ∧
        (∀ k, k ∈ acc.map Prod.fst → k ∈ acc'.map Prod.fst) ∧
        (∀ pub ∈ ps, ∀ a p, .author a ∈ pub.authors →
          a.uniquePathName = some p → p ∈ acc'.map Prod.fst) ∧
        (∀ k a, (k, a) ∈ acc' → (k, a) ∈ acc ∨ a.uniquePathName = some k) ∧
        ((acc.map Prod.fst).Nodup → (acc'.map Prod.fst).Nodup) := by
  intro ps
  induction ps with
  | nil =>
    intro acc acc' ps' h
    simp only [fixPubs, Option.some.injEq, Prod.mk.injEq] at h
    obtain ⟨h1, h2⟩ := h
    subst h1
    subst h2
    exact ⟨by simp, fun k hk => hk, by simp, fun k a hka => Or.inl hka,
      fun hnd => hnd⟩
  | cons pub rest ih =>
    intro acc acc' ps' h
    simp only [fixPubs] at h
    cases hel : fixElems acc pub.authors with
    | none => rw [hel] at h; cases h
    | some pe =>
      obtain ⟨acc₁, authors'⟩ := pe
      rw [hel] at h
      dsimp only at h
      cases hrec : fixPubs acc₁ rest with
      | none => rw [hrec] at h; cases h
      | some pr =>
        obtain ⟨acc₂, rest'⟩ := pr
        rw [hrec] at h
        simp only [Option.some.injEq, Prod.mk.injEq] at h
        obtain ⟨h1, h2⟩ := h
        subst h1
        subst h2
        obtain ⟨eAll, eMono, eCover, eVal, eNd⟩ :=
          fixElems_spec pub.authors acc acc₁ authors' hel
        obtain ⟨pAll, pMono, pCover, pVal, pNd⟩ := ih acc₁ acc₂ rest' hrec
        refine ⟨?_, fun k hk => pMono k (eMono k hk), ?_, ?_,
          fun hnd => pNd (eNd hnd)⟩
        · intro pub' hp r hr
          rcases List.mem_cons.mp hp with h' | h'
          · rw [h'] at hr
            exact eAll r hr
          · exact pAll pub' h' r hr
        · intro pub0 hp a p ha hpn
          rcases List.mem_cons.mp hp with h' | h'
          · exact pMono p (eCover a p (h' ▸ ha) hpn)
          · exact pCover pub0 h' a p ha hpn
        · intro k a hka
          rcases pVal k a hka with h' | h'
          · exact eVal k a h'
          · exact Or.inr h'

/-- Behaviour of the `fix_authors` loop over the citations dict, lifted
from `fixPubs_spec`. -/
theorem fixCits_spec :
    ∀ (cs : List (String × List Publication))
      (acc acc' : List (String × Author))
      (cs' : List (String × List Publication)),
      fixCits acc cs = some (acc', cs') →
      (∀ c ∈ cs', ∀ pub ∈ c.2, ∀ r ∈ pub.authors, refIsPath r = true) ∧
        (∀ k, k ∈ acc.map Prod.fst → k ∈ acc'.map Prod.fst) ∧
        (∀ c ∈ cs, ∀ pub ∈ c.2, ∀ a p, .author a ∈ pub.authors →
          a.uniquePathName = some p → p ∈ acc'.map Prod.fst) ∧
        (∀ k a, (k, a) ∈ acc' → (k, a) ∈ acc ∨ a.uniquePathName = some k) ∧
        ((acc.map Prod.fst).Nodup → (acc'.map Prod.fst).Nodup) := by
  intro cs
  induction cs with
  | nil =>
    intro acc acc' cs' h
    simp only [fixCits, Option.some.injEq, Prod.mk.injEq] at h
    obtain ⟨h1, h2⟩ := h
    subst h1
    subst h2
    exact ⟨by simp, fun k hk => hk, by simp, fun k a hka => Or.inl hka,
      fun hnd => hnd⟩
  | cons c rest ih =>
    intro acc acc' cs' h
    obtain ⟨pid, cits⟩ := c
    simp only [fixCits] at h
    cases hps : fixPubs acc cits with
    | none => rw [hps] at h; cases h
    | some pc =>
      obtain ⟨acc₁, cits'⟩ := pc
      rw [hps] at h
      dsimp only at h
      cases hrec : fixCits acc₁ rest with
      | none => rw [hrec] at h; cases h
      | some pr =>
        obtain ⟨acc₂, rest'⟩ := pr
        rw [hrec] at h
        simp only [Option.some.injEq, Prod.mk.injEq] at h
        obtain ⟨h1, h2⟩ := h
        subst h1
        subst h2
        obtain ⟨pAll, pMono, pCover, pVal, pNd⟩ :=
          fixPubs_spec cits acc acc₁ cits' hps
        obtain ⟨cAll, cMono, cCover, cVal, cNd⟩ := ih acc₁ acc₂ rest' hrec
        refine ⟨?_, fun k hk => cMono k (pMono k hk), ?_, ?_,
          fun hnd => cNd (pNd hnd)⟩
        · intro c' hc pub hp r hr
          rcases List.mem_cons.mp hc with h' | h'
          · rw [h'] at hp
            exact pAll pub hp r hr
          · exact cAll c' h' pub hp r hr
        · intro c0 hc pub hp a p ha hpn
          rcases List.mem_cons.mp hc with h' | h'
          · have : pub ∈ cits := by rw [h'] at hp; exact hp
            exact cMono p (pCover pub this a p ha hpn)
          · exact cCover c0 h' pub hp a p ha hpn
        · intro k a hka
          rcases cVal k a hka with h' | h'
          · exact pVal k a h'
          · exact Or.inr h'

/-- In a dict whose values carry their own key as path, reading the paths
of the values gives back the keys. -/
theorem filterMap_uniq_of_coherent :
    ∀ (m : List (String × Author)),
      (∀ k a, (k, a) ∈ m → a.uniquePathName = some k) →
      (m.map Prod.snd).filterMap Author.uniquePathName = m.map Prod.fst := by
  intro m
  induction m with
  | nil => intro _; rfl
  | cons x xs ih =>
    intro hco
    simp only [List.map_cons, List.filterMap_cons]
    rw [hco x.1 x.2 (by exact List.mem_cons_self ..)]
    rw [ih (fun k a hka => hco k a (List.mem_cons_of_mem _ hka))]

/-- C4 (amended): after `fix_authors` no author slot holds an embedded
record; the path of every embedded record of the input appears as the
`unique_path_name` of some record in the resulting `Step.authors`; and the
records moved into `Step.authors` are deduplicated by path.  (The claim as
stated also covered path strings already present in the input, which
`fix_authors_preexisting_path_cex` refutes: those are left alone and need
not appear in `Step.authors`.) -/
theorem fix_authors_paths (σ : Type) :
    ∀ (s t : Step σ), fixAuthors s = some t →
      ((stepRefs t).all refIsPath = true) ∧
        (∀ a p, .author a ∈ stepRefs s → a.uniquePathName = some p →
          p ∈ authorPaths t.authors) ∧
        ((t.authors.drop s.authors.length).filterMap
          Author.uniquePathName).Nodup := by
  intro s t h
  unfold fixAuthors at h
  cases hps : fixPubs [] s.self_publications with
  | none => rw [hps] at h; cases h
  | some pp =>
    obtain ⟨acc₁, pubs'⟩ := pp
    rw [hps] at h
    dsimp only at h
    cases hcs : fixCits acc₁ s.citations with
    | none => rw [hcs] at h; cases h
    | some pc =>
      obtain ⟨acc₂, cits'⟩ := pc
      rw [hcs] at h
      simp only [Option.some.injEq] at h
      obtain ⟨pAll, pMono, pCover, pVal, pNd⟩ :=
        fixPubs_spec s.self_publications [] acc₁ pubs' hps
      obtain ⟨cAll, cMono, cCover, cVal, cNd⟩ :=
        fixCits_spec s.citations acc₁ acc₂ cits' hcs
      have hco : ∀ k a, (k, a) ∈ acc₂ → a.uniquePathName = some k := by
        intro k a hka
        rcases cVal k a hka with h' | h'
        · rcases pVal k a h' with h'' | h''
          · cases h''
          · exact h''
        · exact h'
      have hT : t = { s with
          self_publications := pubs'
          citations := cits'
          authors := s.authors ++ acc₂.map Prod.snd } := h.symm
      subst hT
      refine ⟨?_, ?_, ?_⟩
      · rw [List.all_eq_true]
        intro r hr
        unfold stepRefs at hr
        rcases List.mem_append.mp hr with hr | hr
        · obtain ⟨l, hl, hrl⟩ := List.mem_flatten.mp hr
          obtain ⟨pub', hp', hpeq⟩ := List.mem_map.mp hl
          exact pAll pub' hp' r (hpeq ▸ hrl)
        · obtain ⟨l, hl, hrl⟩ := List.mem_flatten.mp hr
          obtain ⟨c', hc', hceq⟩ := List.mem_map.mp hl
          rw [← hceq] at hrl
          obtain ⟨l₂, hl₂, hrl₂⟩ := List.mem_flatten.mp hrl
          obtain ⟨pub', hp', hpeq⟩ := List.mem_map.mp hl₂
          exact cAll c' hc' pub' hp' r (hpeq ▸ hrl₂)
      · intro a p ha hpn
        have hkey : p ∈ acc₂.map Prod.fst := by
          unfold stepRefs at ha
          rcases List.mem_append.mp ha with ha | ha
          · obtain ⟨l, hl, hal⟩ := List.mem_flatten.mp ha
            obtain ⟨pub, hp, hpeq⟩ := List.mem_map.mp hl
            exact cMono p (pCover pub hp a p (hpeq ▸ hal) hpn)
          · obtain ⟨l, hl, hal⟩ := List.mem_flatten.mp ha
            obtain ⟨c, hc, hceq⟩ := List.mem_map.mp hl
            rw [← hceq] at hal
            obtain ⟨l₂, hl₂, hal₂⟩ := List.mem_flatten.mp hal
            obtain ⟨pub, hp, hpeq⟩ := List.mem_map.mp hl₂
            exact cCover c hc pub hp a p (hpeq ▸ hal₂) hpn
        obtain ⟨x, hx, hxeq⟩ := List.mem_map.mp hkey
        unfold authorPaths
        refine List.mem_filterMap.mpr ⟨x.2, ?_, ?_⟩
        · exact List.mem_append_right _ (List.mem_map.mpr ⟨x, hx, rfl⟩)
        · rw [hco x.1 x.2 hx, hxeq]
      · rw [List.drop_left' (by rfl)]
        rw [filterMap_uniq_of_coherent acc₂ hco]
        exact cNd (pNd (by simp))

/-- A step whose only author slot already holds a bare path string that
names no record. -/
def cexStep : Step Unit :=
  { delay := 60
    self_publications := [{ name := some "p", authors := [.path "author/zzz"] }] }

/-- C4 counterexample: the claim, read over all Step values, asks every
referenced path to appear in `Step.authors` after `fix_authors`; a path
string placed directly by an adapter is left as-is and `Step.authors`
stays empty. -/
theorem fix_authors_preexisting_path_cex :
    fixAuthors cexStep = some cexStep ∧
      refPaths cexStep = ["author/zzz"] ∧
      cexStep.authors = [] ∧
      authorPaths cexStep.authors = [] := by
  refine ⟨?_, rfl, rfl, rfl⟩
  rfl

/-- An author record embedded by an adapter. -/
def annAuthor : Author := { id := some "A1", full_name := some "Ann" }

/-- A step embedding `annAuthor` both in a self publication and in a
citation. -/
def fixStepIn : Step Unit :=
  { delay := 60
    self_publications := [{ name := some "P1", authors := [.author annAuthor] }]
    citations := [("Q", [{ name := some "C1", authors := [.author annAuthor] }])] }

/-- The step produced by `fix_authors` on `fixStepIn`. -/
def fixStepOut : Step Unit :=
  { delay := 60
    self_publications := [{ name := some "P1", authors := [.path "author/A1"] }]
    citations := [("Q", [{ name := some "C1", authors := [.path "author/A1"] }])]
    authors := [annAuthor] }

/-- Witness for C4 on a step with one embedded author appearing twice. -/
theorem fix_authors_paths_witness :
    ((stepRefs fixStepOut).all refIsPath = true) ∧
      "author/A1" ∈ authorPaths fixStepOut.authors ∧
      ((fixStepOut.authors.drop fixStepIn.authors.length).filterMap
        Author.uniquePathName).Nodup := by
  obtain ⟨h1, h2, h3⟩ := fix_authors_paths Unit fixStepIn fixStepOut (by rfl)
  exact ⟨h1, h2 annAuthor "author/A1" (by decide) (by decide), h3⟩

end CiteHub
